import Mathlib

/-!
Verification of the Team Stack Ranking Manager's ranking and score-adjustment
engine against its sources.  JS numbers are embedded as `ℚ`, JS string-keyed
records as association lists, and the React pages' handlers as pure functions
over explicit state.  The backend engine (FastAPI) is not among the source
files; where a claim depends on it, the definition is modelled from the spec
and marked as such in its doc comment.
-/

namespace TeamRank

/-- JS record access `m[k] || 0` on a string-keyed record of numbers:
a missing key (and the value `0`) reads as `0`. -/
def jsGet (m : List (String × ℚ)) (k : String) : ℚ :=
  (m.lookup k).getD 0

/-- The `Metric` interface of `services/api` (`id`, `name`, `weights_by_role`,
`min_value`, `max_value`). -/
structure Metric where
  id : String
  name : String
  weights_by_role : List (String × ℚ)
  min_value : ℚ
  max_value : ℚ
deriving DecidableEq

/-- The `RankingEntry` interface of `services/api`: `alias` (here `alias'`),
`role`, `weighted_score`, `rank`, optional `expected_rank`, `mismatch`. -/
structure RankingEntry where
  alias' : String
  role : String
  weighted_score : ℚ
  rank : Nat
  expected_rank : Option Nat
  mismatch : Bool
deriving DecidableEq

/-- The `ScoreAdjustmentPreview` interface of `services/api`: `proposed`,
`achieved_weighted_score`, `hit_clamps`. -/
structure ScoreAdjustmentPreview where
  proposed : List (String × ℚ)
  achieved_weighted_score : ℚ
  hit_clamps : List String
deriving DecidableEq

/-- The field names, in declaration order, of the `ScoreAdjustmentPreview`
interface in `services/api` (both copies in the sources declare the same
three fields). -/
def scoreAdjustmentPreviewFields : List String :=
  ["proposed", "achieved_weighted_score", "hit_clamps"]

/-- The `ScoreAdjustmentRequest` interface of `services/api`: `alias`
(here `alias'`), `selected_metrics`, `percent`. -/
structure ScoreAdjustmentRequest where
  alias' : String
  selected_metrics : List String
  percent : ℚ
deriving DecidableEq

/-- `useState<number>(5.0)`: the adjust page's initial target percent. -/
def initialTargetPercent : ℚ := 5

/-- The `marks` of the adjust page's target-percent `Slider`: the slider value
`v` is labelled and displayed as `v` percent. -/
def sliderMarks : List (ℚ × String) :=
  [(1/10, "0.1%"), (5, "5%"), (10, "10%"), (25, "25%"), (50, "50%")]

/-- `handleCalculate` of the adjust page: with a member alias and a non-empty
metric selection it issues a preview request whose `percent` field is the
slider value verbatim; otherwise it does nothing. -/
def handleCalculate (alias' : String) (selectedMetrics : List String)
    (targetPercent : ℚ) : Option ScoreAdjustmentRequest :=
  if alias' = "" ∨ selectedMetrics = [] then none
  else some ⟨alias', selectedMetrics, targetPercent⟩

/-- The `disabled` condition of the adjust page's Calculate button:
`selectedMetrics.length === 0 || previewMutation.isPending`. -/
def calculateDisabled (selectedMetrics : List String) (isPending : Bool) : Bool :=
  selectedMetrics.isEmpty || isPending

/-- The score `TextField` `onChange` of the adjust page: `parseFloat`, `NaN`
becomes `0`, then `Math.min(Math.max(v, 0), 10)` — a fixed clamp to `[0, 10]`. -/
def clampEditedScore (v : Option ℚ) : ℚ :=
  match v with
  | none => 0
  | some x => min (max x 0) 10

/-- `referenceMember` of the adjust page: with an expected rank present, the
target rank is the expected rank itself (clamped to at least 1 when the member
must move up), and the reference is the first same-role entry at that rank
other than the member. -/
def referenceMember (rankings : List RankingEntry) (currentRanking : RankingEntry)
    (alias' : String) : Option RankingEntry :=
  match currentRanking.expected_rank with
  | none => none
  | some e =>
    if e = 0 then none
    else
      let targetRank := if e < currentRanking.rank then Nat.max 1 e else e
      rankings.find? (fun r =>
        r.role == currentRanking.role && r.rank == targetRank && r.alias' != alias')

/-- `metrics.filter(m => (m.weights_by_role[role] || 0) > 0)`: the metrics
applicable to a role. -/
def applicableMetrics (metrics : List Metric) (role : String) : List Metric :=
  metrics.filter (fun m => 0 < jsGet m.weights_by_role role)

/-- `weightByMetricName` of the adjust page: the name-to-weight record built
over the applicable metrics. -/
def weightByMetricName (metrics : List Metric) (role : String) : List (String × ℚ) :=
  (applicableMetrics metrics role).map (fun m => (m.name, jsGet m.weights_by_role role))

/-- The `totals.memberWeighted` accumulation of the adjust page: over the
applicable metrics, the displayed value times `weightByMetricName[m.name] || 0`. -/
def memberWeighted (metrics : List Metric) (role : String) (value : String → ℚ) : ℚ :=
  ((applicableMetrics metrics role).map
    (fun m => value m.name * jsGet (weightByMetricName metrics role) m.name)).sum

/-- `getCurrentScore` of the adjust page:
`scores?.[alias]?.[metricName] !== undefined ? (scores[alias][metricName] || 0) : 0`.
A missing member row or metric entry reads as `0`. -/
def getCurrentScore (scores : List (String × List (String × ℚ)))
    (alias' : String) (metricName : String) : ℚ :=
  match scores.lookup alias' with
  | none => 0
  | some ms =>
    match ms.lookup metricName with
    | none => 0
    | some v => v

/-- `getEditedValue` of the adjust page: the edited value if present, else the
previewed proposal if present, else the current score. -/
def getEditedValue (scores : List (String × List (String × ℚ))) (alias' : String)
    (editedScores : List (String × ℚ)) (preview : Option ScoreAdjustmentPreview)
    (metricName : String) : ℚ :=
  match editedScores.lookup metricName with
  | some s => s
  | none =>
    match preview.bind (fun p => p.proposed.lookup metricName) with
    | some p => p
    | none => getCurrentScore scores alias' metricName

/-- A string-keyed JS record update `{ ...prev, [k]: v }`. -/
def recordSet (l : List (String × ℚ)) (k : String) (v : ℚ) : List (String × ℚ) :=
  (k, v) :: l.filter (fun kv => kv.1 ≠ k)

/-- A JS record spread `{ ...prev, ...r }`: entries of `r` override `prev`. -/
def recordMerge (l r : List (String × ℚ)) : List (String × ℚ) :=
  r.foldl (fun acc kv => recordSet acc kv.1 kv.2) l

/-- The adjust page's interactive state: the checked metrics, the edited
scores record, the last preview response, and — when a preview request is in
flight (`previewMutation.isPending`) — the metric selection that request was
sent with. -/
structure AdjustState where
  selectedMetrics : List String
  editedScores : List (String × ℚ)
  preview : Option ScoreAdjustmentPreview
  pendingRequest : Option (List String)
deriving DecidableEq

/-- The adjust page's initial state: nothing selected, nothing edited, no
preview, no request in flight. -/
def initialAdjustState : AdjustState := ⟨[], [], none, none⟩

/-- `handleMetricToggle`: unchecking removes the metric from the selection and
deletes its edited value (reverting it to the original); checking appends it
to the selection. -/
def handleMetricToggle (st : AdjustState) (metricName : String) : AdjustState :=
  if metricName ∈ st.selectedMetrics then
    { st with
      selectedMetrics := st.selectedMetrics.filter (fun m => m ≠ metricName),
      editedScores := st.editedScores.filter (fun kv => kv.1 ≠ metricName) }
  else
    { st with selectedMetrics := st.selectedMetrics ++ [metricName] }

/-- The preview mutation's `onSuccess`: store the preview and spread its
proposed scores over the edited record unconditionally — the selection is not
consulted, so a proposal for a metric unchecked while the request was in
flight is merged back. The pending request ends. -/
def applyPreviewSuccess (st : AdjustState) (p : ScoreAdjustmentPreview) : AdjustState :=
  { st with
    preview := some p,
    pendingRequest := none,
    editedScores := recordMerge st.editedScores p.proposed }

/-- A score `TextField` edit: store the clamped value for the metric. -/
def handleScoreEdit (st : AdjustState) (metricName : String) (v : Option ℚ) : AdjustState :=
  { st with editedScores := recordSet st.editedScores metricName (clampEditedScore v) }

/-- `handleSave`'s change set: the edited entries whose value differs from the
original by more than the `0.0001` epsilon. -/
def saveChanges (scores : List (String × List (String × ℚ))) (alias' : String)
    (st : AdjustState) : List (String × ℚ) :=
  st.editedScores.filter (fun kv => 1/10000 < |kv.2 - getCurrentScore scores alias' kv.1|)

/-- `handleSave`: with a member alias and a non-empty change set, issue an
apply request carrying exactly the changed metrics. -/
def handleSave (scores : List (String × List (String × ℚ))) (alias' : String)
    (st : AdjustState) : Option (String × List (String × ℚ)) :=
  if alias' = "" then none
  else if saveChanges scores alias' st = [] then none
  else some (alias', saveChanges scores alias' st)

/-- The user-interface events of the adjust page: toggling a checkbox, typing
a score, clicking Calculate, and the asynchronous arrival of a preview
response. -/
inductive AdjustEvent where
  | toggle (metricName : String)
  | edit (metricName : String) (v : Option ℚ)
  | calculate
  | previewSuccess (p : ScoreAdjustmentPreview)

/-- One step of the adjust page's state under an event. Clicking Calculate
does nothing while the button is disabled (empty selection or a request
already pending); otherwise it puts a request for the current selection in
flight. -/
def stepAdjust (st : AdjustState) : AdjustEvent → AdjustState
  | .toggle m => handleMetricToggle st m
  | .edit m v => handleScoreEdit st m v
  | .calculate =>
    if calculateDisabled st.selectedMetrics st.pendingRequest.isSome then st
    else { st with pendingRequest := some st.selectedMetrics }
  | .previewSuccess p => applyPreviewSuccess st p

/-- Modelled from the spec: the backend AdjustmentSolver (absent from the
source files) answers a preview request with a diff per requested metric
(§4.4 step 6) — the proposal's entries cover exactly the `selected_metrics`
the request carried. -/
def PreviewAnswers (sel : List String) (p : ScoreAdjustmentPreview) : Prop :=
  (∀ kv ∈ p.proposed, kv.1 ∈ sel) ∧ ∀ m ∈ sel, (p.proposed.lookup m).isSome

/-- The events the page can emit in a given state: checkboxes exist only for
the applicable metrics and stay enabled while a preview is pending (only the
Calculate button is disabled then), score fields exist only for checked
metrics, Calculate can always be clicked, and a preview response can only
arrive for the request in flight, answering the selection that request was
sent with — not the selection at arrival time. -/
def ValidAdjustEvent (applicable : List String) (st : AdjustState) : AdjustEvent → Prop
  | .toggle m => m ∈ applicable
  | .edit m _ => m ∈ st.selectedMetrics
  | .calculate => True
  | .previewSuccess p =>
    st.pendingRequest ≠ none ∧ PreviewAnswers (st.pendingRequest.getD []) p

instance (applicable : List String) (st : AdjustState) (e : AdjustEvent) :
    Decidable (ValidAdjustEvent applicable st e) := by
  cases e with
  | toggle m => exact (inferInstance : Decidable (m ∈ applicable))
  | edit m v => exact (inferInstance : Decidable (m ∈ st.selectedMetrics))
  | calculate => exact (inferInstance : Decidable True)
  | previewSuccess p =>
    exact (inferInstance : Decidable (st.pendingRequest ≠ none ∧
      ((∀ kv ∈ p.proposed, kv.1 ∈ st.pendingRequest.getD []) ∧
        ∀ m ∈ st.pendingRequest.getD [], (p.proposed.lookup m).isSome)))

/-- The adjust-page states reachable from the initial state through valid
events. -/
inductive ReachableAdjust (applicable : List String) : AdjustState → Prop
  | init : ReachableAdjust applicable initialAdjustState
  | step {st : AdjustState} {e : AdjustEvent} : ReachableAdjust applicable st →
      ValidAdjustEvent applicable st e → ReachableAdjust applicable (stepAdjust st e)

/-- A concrete event run on the adjust page: check "M1", type 7, uncheck
"M1". -/
def demoAdjustRun : AdjustState :=
  stepAdjust (stepAdjust (stepAdjust initialAdjustState (.toggle "M1"))
    (.edit "M1" (some 7))) (.toggle "M1")

/-- A concrete interleaved run on the adjust page: check "M1", click
Calculate, uncheck "M1" while the request is pending, then the response
proposing 9 for "M1" arrives. -/
def staleRun : AdjustState :=
  stepAdjust (stepAdjust (stepAdjust (stepAdjust initialAdjustState
    (.toggle "M1")) .calculate) (.toggle "M1"))
    (.previewSuccess ⟨[("M1", 9)], 9, []⟩)

/-- Modelled from the spec: input row of the backend RankingEngine (absent
from the source files) — a member with role, computed weighted score and
optional expected rank (§4.2). -/
structure MemberScore where
  alias' : String
  role : String
  score : ℚ
  expected : Option Nat
deriving DecidableEq

/-- Lexicographic comparison of two code-point sequences: the ordering the
spec's deterministic alias tie-break uses. -/
def lexLeB : List Nat → List Nat → Bool
  | [], _ => true
  | _ :: _, [] => false
  | a :: as, b :: bs => if a < b then true else if b < a then false else lexLeB as bs

/-- Alias comparison: lexicographic on the aliases' code points. -/
def aliasLe (a b : String) : Prop :=
  lexLeB (a.data.map Char.toNat) (b.data.map Char.toNat) = true

instance : DecidableRel aliasLe := fun a b => by
  unfold aliasLe; infer_instance

/-- Modelled from the spec: the cohort sort order of §4.2 — weighted score
descending, exact ties broken deterministically by alias ascending. -/
def cohortOrder (a b : MemberScore) : Prop :=
  b.score < a.score ∨ (a.score = b.score ∧ aliasLe a.alias' b.alias')

instance : DecidableRel cohortOrder := fun a b => by
  unfold cohortOrder; infer_instance

/-- Modelled from the spec: sort one role cohort by weighted score
descending, ties by alias ascending (§4.2). -/
def sortCohort (l : List MemberScore) : List MemberScore :=
  List.insertionSort cohortOrder l

/-- Modelled from the spec: the dense-rank step — a repeated score keeps the
previous rank, a new distinct score increments it by one (§4.2). -/
def nextRank (prev : Option ℚ) (r : Nat) (s : ℚ) : Nat :=
  if prev = some s then r else r + 1

/-- Modelled from the spec: `mismatch` is true iff an expected rank is present
and differs from the computed rank (§4.2). -/
def mismatchOf (expected : Option Nat) (rank : Nat) : Bool :=
  match expected with
  | none => false
  | some e => e != rank

/-- Modelled from the spec: walk the sorted cohort assigning dense ranks,
carrying the previous score and rank (§4.2). -/
def rankFrom (prev : Option ℚ) (r : Nat) : List MemberScore → List RankingEntry
  | [] => []
  | m :: rest =>
    ⟨m.alias', m.role, m.score, nextRank prev r m.score, m.expected,
      mismatchOf m.expected (nextRank prev r m.score)⟩ ::
    rankFrom (some m.score) (nextRank prev r m.score) rest

/-- Modelled from the spec: rank one role cohort — sort, then assign dense
ranks with the first distinct score receiving rank 1 (§4.2). -/
def rankCohort (l : List MemberScore) : List RankingEntry :=
  rankFrom none 0 (sortCohort l)

/-- Modelled from the spec: the distinct roles present, in ascending name
order (cross-group order is role name ascending, §4.2). -/
def rolesOf (l : List MemberScore) : List String :=
  List.insertionSort aliasLe (l.map (fun m => m.role)).dedup

/-- Modelled from the spec: `computeRankings` (absent backend RankingEngine) —
one dense-ranked block per role cohort (§4.2, §6). -/
def computeRankings (members : List MemberScore) : List RankingEntry :=
  (rolesOf members).flatMap
    (fun ro => rankCohort (members.filter (fun m => m.role = ro)))

/-- The rows of one role cohort within the full ranking output. -/
def cohortRows (members : List MemberScore) (role : String) : List RankingEntry :=
  (computeRankings members).filter (fun row => row.role = role)

/-- JS `row.rank !== row.expected_rank` where `expected_rank` is a number or
null: always true against null. -/
def jsRankNeq (rank : Nat) (expected : Option Nat) : Bool :=
  match expected with
  | none => true
  | some e => rank != e

/-- The rows post-processing of the stack-rank table:
`rankExpectMismatch = row.rank !== row.expected_rank && row.expected_rank != null`. -/
def rankExpectMismatch (rank : Nat) (expected : Option Nat) : Bool :=
  jsRankNeq rank expected && expected.isSome

/-- The stack-rank table's rank-cell render: red, bold and clickable exactly
when the row's `mismatch` flag is set. -/
def rankCellMismatchStyled (entry : RankingEntry) : Bool := entry.mismatch

/-- The alternative stack-rank table's rank-cell render: highlighted and
clickable exactly when `rankExpectMismatch` is set. -/
def rankCellClickable (entry : RankingEntry) : Bool :=
  rankExpectMismatch entry.rank entry.expected_rank

/-- The auxiliary adjacency relation produced by dense ranking: a row's rank
repeats the previous rank on an equal score and increments it on a new one. -/
def denseStep (a b : RankingEntry) : Prop :=
  b.rank = if b.weighted_score = a.weighted_score then a.rank else a.rank + 1

/-- The ordering relation dense ranking maintains along a sorted cohort:
scores weakly decrease, ranks weakly increase, and two rows share a score
exactly when they share a rank. -/
def rankRel (a b : RankingEntry) : Prop :=
  b.weighted_score ≤ a.weighted_score ∧ a.rank ≤ b.rank ∧
    (a.weighted_score = b.weighted_score ↔ a.rank = b.rank)

instance : IsTrans RankingEntry rankRel :=
  ⟨fun a b c hab hbc => by
    obtain ⟨hsba, hrab, hiff1⟩ := hab
    obtain ⟨hscb, hrbc, hiff2⟩ := hbc
    refine ⟨hscb.trans hsba, hrab.trans hrbc, ?_, ?_⟩
    · intro hac
      have hab' : a.weighted_score = b.weighted_score :=
        le_antisymm (hac.symm ▸ hscb) hsba
      have hbc' : b.weighted_score = c.weighted_score :=
        hab' ▸ hac
      exact (hiff1.mp hab').trans (hiff2.mp hbc')
    · intro hac
      have hab' : a.rank = b.rank :=
        le_antisymm hrab (hac.symm ▸ hrbc)
      have hbc' : b.rank = c.rank := hab' ▸ hac
      exact (hiff1.mpr hab').trans (hiff2.mpr hbc')⟩

/-- Scenario A's cohort: three "Dev" members with weighted scores 90, 90, 70. -/
def devMembers : List MemberScore :=
  [⟨"cat", "Dev", 70, none⟩, ⟨"ann", "Dev", 90, none⟩, ⟨"bob", "Dev", 90, none⟩]

/-- A cohort with expected ranks: "ann" expects rank 2 but computes rank 1,
"bob" expects and computes rank 2, "cat" has no expected rank. -/
def devMembersE : List MemberScore :=
  [⟨"ann", "Dev", 90, some 2⟩, ⟨"bob", "Dev", 80, some 2⟩, ⟨"cat", "Dev", 70, none⟩]

end TeamRank

namespace TeamRank

/-- Concrete ranking entries used to evaluate the reference-member rule. -/
def devA : RankingEntry := ⟨"ann", "Dev", 90, 1, none, false⟩

/-- Second entry of the concrete cohort. -/
def devB : RankingEntry := ⟨"bob", "Dev", 80, 2, none, false⟩

/-- Third entry of the concrete cohort: rank 3, expected rank 1. -/
def devC : RankingEntry := ⟨"cat", "Dev", 70, 3, some 1, true⟩

/-- A metric whose per-metric bounds lie outside the fixed `[0, 10]` range. -/
def wideMetric : Metric := ⟨"M9", "Wide metric", [("Dev", 1)], 20, 100⟩

/-- A concrete metric list: two metrics applicable to "Dev" and one with
weight 0 for "Dev". -/
def demoMetrics : List Metric :=
  [⟨"1", "M1", [("Dev", 1)], 0, 10⟩,
   ⟨"2", "M2", [("Dev", 0), ("PMO", 1)], 0, 10⟩,
   ⟨"3", "M3", [("Dev", 2)], 0, 10⟩]

/-- A concrete score assignment on the demo metrics. -/
def demoValue : String → ℚ := fun n => if n = "M2" then 100 else 4

/-- A second score assignment differing from `demoValue` only on the
zero-weight metric "M2". -/
def demoValue' : String → ℚ := fun n => if n = "M2" then -77 else 4

/-- A one-metric list whose only metric is applicable to "Dev". -/
def c4Metrics : List Metric := [⟨"1", "M1", [("Dev", 1)], 0, 10⟩]

end TeamRank

namespace TeamRank

/-- C5 (counterexample): the adjustment-preview result type in the sources has
fields `proposed`, `achieved_weighted_score` and `hit_clamps` only — it
contains no `fullyAchieved` (nor `fully_achieved`) flag. -/
theorem preview_has_no_fullyAchieved_field :
    "fullyAchieved" ∉ scoreAdjustmentPreviewFields ∧
    "fully_achieved" ∉ scoreAdjustmentPreviewFields := by
  decide

/-- C5 (amended): an adjustment-preview result carries exactly the proposed
scores, the achieved weighted score and the clamped-metric list; no
`fullyAchieved` flag is part of the result. -/
theorem preview_result_fields :
    scoreAdjustmentPreviewFields = ["proposed", "achieved_weighted_score", "hit_clamps"] ∧
    "fullyAchieved" ∉ scoreAdjustmentPreviewFields := by
  decide

/-- C6 (counterexample): at the page's initial slider value — labelled "5%" in
the slider marks — the preview request carries `percent = 5`, not the fraction
`5/100` that would denote 5%. -/
theorem calculate_sends_percentage_points :
    handleCalculate "tom" ["M1"] initialTargetPercent =
      some ⟨"tom", ["M1"], 5⟩ ∧
    ((5 : ℚ), "5%") ∈ sliderMarks ∧
    (5 : ℚ) ≠ 5 / 100 := by
  refine ⟨?_, by norm_num [sliderMarks], by norm_num⟩
  decide

/-- C6 (amended): whenever the adjust page issues a preview request, the
`percent` field equals the slider's value verbatim, i.e. it is expressed in
percentage points (the value `v` denotes `v`%), so the fraction the spec calls
`p` corresponds to `percent / 100`. -/
theorem calculate_percent_is_slider_value (alias' : String)
    (selectedMetrics : List String) (targetPercent : ℚ)
    (ha : alias' ≠ "") (hs : selectedMetrics ≠ []) :
    handleCalculate alias' selectedMetrics targetPercent =
      some ⟨alias', selectedMetrics, targetPercent⟩ := by
  unfold handleCalculate
  rw [if_neg]
  push_neg
  exact ⟨ha, hs⟩

/-- Witness for C6 (amended) at a concrete input. -/
theorem calculate_percent_is_slider_value_witness :
    handleCalculate "tom" ["M1", "M2"] (7 / 2) =
      some ⟨"tom", ["M1", "M2"], 7 / 2⟩ :=
  calculate_percent_is_slider_value "tom" ["M1", "M2"] (7 / 2)
    (by decide) (by decide)

/-- C7 (code evaluation at the failing input): in a three-member cohort with
ranks 1, 2, 3 where the rank-3 member has expected rank 1, the code picks the
rank-1 member (the expected rank itself) as reference, not the member one rank
step better than the current rank (rank 2). -/
theorem referenceMember_jumps_to_expected_rank :
    referenceMember [devA, devB, devC] devC "cat" = some devA ∧
    devA.rank = 1 ∧ devC.rank = 3 ∧ devC.expected_rank = some 1 ∧
    devA.rank ≠ devC.rank - 1 := by
  refine ⟨?_, by decide, by decide, by decide, by decide⟩
  decide

/-- C8 (code evaluation at the failing input): a manual edit of 50 on a metric
whose own bounds are `[20, 100]` is clamped by the page to the fixed range
`[0, 10]`, yielding 10 — outside the metric's own bounds, although 50 itself
lies within them. -/
theorem clampEditedScore_ignores_metric_bounds :
    clampEditedScore (some 50) = 10 ∧
    wideMetric.min_value ≤ (50 : ℚ) ∧ (50 : ℚ) ≤ wideMetric.max_value ∧
    ¬ wideMetric.min_value ≤ clampEditedScore (some 50) := by
  refine ⟨?_, by norm_num [wideMetric], by norm_num [wideMetric], ?_⟩
  · norm_num [clampEditedScore]
  · norm_num [clampEditedScore, wideMetric]

/-- Looking up a metric's name in the record built by mapping metrics to
name-keyed entries recovers that metric's entry, provided names are unique. -/
theorem lookup_map_name (f : Metric → ℚ) :
    ∀ l : List Metric, (l.map Metric.name).Nodup →
      ∀ m ∈ l, (l.map (fun x => (x.name, f x))).lookup m.name = some (f m) := by
  intro l
  induction l with
  | nil => intro _ m hm; exact absurd hm (List.not_mem_nil m)
  | cons a t ih =>
    intro hnd m hm
    simp only [List.map_cons, List.nodup_cons] at hnd
    rcases List.mem_cons.mp hm with rfl | hmt
    · simp [List.lookup_cons]
    · have hbeq : (m.name == a.name) = false := by
        refine beq_eq_false_iff_ne.mpr fun h => ?_
        exact hnd.1 (h ▸ List.mem_map_of_mem Metric.name hmt)
      simp only [List.map_cons, List.lookup_cons, hbeq]
      exact ih hnd.2 m hmt

/-- The names of the applicable metrics are unique when all metric names are. -/
theorem applicableMetrics_names_nodup (metrics : List Metric) (role : String)
    (hnd : (metrics.map Metric.name).Nodup) :
    ((applicableMetrics metrics role).map Metric.name).Nodup :=
  hnd.sublist ((List.filter_sublist metrics).map Metric.name)

/-- For an applicable metric, the weight read back from `weightByMetricName`
is its own role weight (metric names unique). -/
theorem jsGet_weightByMetricName (metrics : List Metric) (role : String)
    (hnd : (metrics.map Metric.name).Nodup) (m : Metric)
    (hm : m ∈ applicableMetrics metrics role) :
    jsGet (weightByMetricName metrics role) m.name = jsGet m.weights_by_role role := by
  unfold jsGet weightByMetricName
  rw [lookup_map_name (fun x => jsGet x.weights_by_role role)
    (applicableMetrics metrics role) (applicableMetrics_names_nodup metrics role hnd) m hm]
  rfl

/-- C3: with unique metric names, the adjust page's weighted total is the sum,
over exactly the metrics with positive weight for the role, of score times
weight; and any two score assignments agreeing on those metrics give the same
total, so a zero-weight metric's score can never change it. -/
theorem weighted_score_skips_zero_weights (metrics : List Metric) (role : String)
    (value : String → ℚ) (hnd : (metrics.map Metric.name).Nodup) :
    memberWeighted metrics role value =
      ((metrics.filter (fun m => 0 < jsGet m.weights_by_role role)).map
        (fun m => value m.name * jsGet m.weights_by_role role)).sum ∧
    ∀ value' : String → ℚ,
      (∀ m ∈ metrics, 0 < jsGet m.weights_by_role role → value m.name = value' m.name) →
      memberWeighted metrics role value = memberWeighted metrics role value' := by
  have key : ∀ value'' : String → ℚ,
      memberWeighted metrics role value'' =
        ((applicableMetrics metrics role).map
          (fun m => value'' m.name * jsGet m.weights_by_role role)).sum := by
    intro value''
    unfold memberWeighted
    congr 1
    exact List.map_congr_left fun m hm => by
      rw [jsGet_weightByMetricName metrics role hnd m hm]
  constructor
  · exact key value
  · intro value' hagree
    rw [key value, key value']
    congr 1
    refine List.map_congr_left fun m hm => ?_
    have hm' := List.mem_filter.mp hm
    rw [hagree m hm'.1 (by simpa using hm'.2)]

/-- Witness for C3: on the demo metrics (unique names), two score assignments
that differ only on the zero-weight metric "M2" yield the same weighted
total. -/
theorem weighted_score_skips_zero_weights_witness :
    memberWeighted demoMetrics "Dev" demoValue =
      memberWeighted demoMetrics "Dev" demoValue' :=
  (weighted_score_skips_zero_weights demoMetrics "Dev" demoValue (by decide)).2
    demoValue' (by decide)

/-- C4 (counterexample): with no score recorded for member "tom" on the
applicable metric "M1", `getCurrentScore` returns 0 and the weighted total
evaluates to 0 — the computation substitutes zero and never fails. -/
theorem missing_score_reads_as_zero :
    getCurrentScore [] "tom" "M1" = 0 ∧
    memberWeighted c4Metrics "Dev" (getEditedValue [] "tom" [] none) = 0 := by
  constructor
  · rfl
  · simp [memberWeighted, applicableMetrics, c4Metrics, weightByMetricName, jsGet,
      getEditedValue, getCurrentScore]

/-- C4 (amended): when a member's row is absent, or present but lacking an
entry for the metric, the adjust page's current-score read is 0 — a missing
score is silently defaulted, not surfaced as an error. -/
theorem getCurrentScore_missing_eq_zero (scores : List (String × List (String × ℚ)))
    (alias' : String) (metricName : String)
    (h : scores.lookup alias' = none ∨
      ∃ ms, scores.lookup alias' = some ms ∧ ms.lookup metricName = none) :
    getCurrentScore scores alias' metricName = 0 := by
  unfold getCurrentScore
  rcases h with h1 | ⟨ms, h1, h2⟩
  · simp only [h1]
  · simp only [h1, h2]

/-- Witness for C4 (amended): member "tom" has a row, but no entry for "M1". -/
theorem getCurrentScore_missing_eq_zero_witness :
    getCurrentScore [("tom", [("M2", 3)])] "tom" "M1" = 0 :=
  getCurrentScore_missing_eq_zero [("tom", [("M2", 3)])] "tom" "M1"
    (Or.inr ⟨[("M2", 3)], by decide, by decide⟩)

/-- Removing a key from a record makes it unreadable and leaves other keys
unchanged. -/
theorem lookup_filter_ne (l : List (String × ℚ)) (k m : String) :
    (l.filter (fun kv => kv.1 ≠ m)).lookup k =
      if k = m then none else l.lookup k := by
  induction l with
  | nil => by_cases h : k = m <;> simp [h]
  | cons a t ih =>
    obtain ⟨a1, a2⟩ := a
    rw [List.filter_cons]
    by_cases ham : a1 = m
    · have hd : (decide ((a1, a2).1 ≠ m)) = false := by simp [ham]
      rw [hd, if_neg Bool.false_ne_true, ih]
      by_cases hkm : k = m
      · rw [if_pos hkm, if_pos hkm]
      · have hbeq : (k == a1) = false :=
          beq_eq_false_iff_ne.mpr fun h => hkm (h.trans ham)
        rw [if_neg hkm, if_neg hkm]
        simp only [List.lookup_cons, hbeq]
    · have hd : (decide ((a1, a2).1 ≠ m)) = true := by simp [ham]
      rw [hd, if_pos rfl]
      by_cases hka : k = a1
      · have hkm : ¬ k = m := fun h => ham (hka ▸ h)
        have hbeq : (k == a1) = true := beq_iff_eq.mpr hka
        rw [if_neg hkm]
        simp only [List.lookup_cons, hbeq]
      · have hbeq : (k == a1) = false := beq_eq_false_iff_ne.mpr hka
        simp only [List.lookup_cons, hbeq, ih]

/-- Reading a record after a JS-style update. -/
theorem lookup_recordSet (l : List (String × ℚ)) (k m : String) (v : ℚ) :
    (recordSet l m v).lookup k = if k = m then some v else l.lookup k := by
  unfold recordSet
  by_cases hkm : k = m
  · simp [List.lookup_cons, hkm]
  · have hbeq : (k == m) = false := beq_eq_false_iff_ne.mpr hkm
    simp only [List.lookup_cons, hbeq, hkm, if_false]
    rw [lookup_filter_ne l k m, if_neg hkm]

/-- A key readable after a JS-style record spread was either written by the
spread or already readable before it. -/
theorem lookup_recordMerge_isSome (r : List (String × ℚ)) :
    ∀ (l : List (String × ℚ)) (k : String),
      ((recordMerge l r).lookup k).isSome →
      (∃ v, (k, v) ∈ r) ∨ (l.lookup k).isSome := by
  induction r with
  | nil => intro l k h; exact Or.inr h
  | cons a t ih =>
    intro l k h
    have h' := ih (recordSet l a.1 a.2) k h
    rcases h' with ⟨v, hv⟩ | hsome
    · exact Or.inl ⟨v, List.mem_cons_of_mem a hv⟩
    · rw [lookup_recordSet] at hsome
      by_cases hka : k = a.1
      · exact Or.inl ⟨a.2, by rw [hka]; exact List.mem_cons_self a t⟩
      · rw [if_neg hka] at hsome
        exact Or.inr hsome

/-- A key absent from a record stays absent after filtering it. -/
theorem lookup_filter_none (l : List (String × ℚ)) (p : String × ℚ → Bool)
    (k : String) (h : l.lookup k = none) : (l.filter p).lookup k = none := by
  induction l with
  | nil => simp
  | cons a t ih =>
    obtain ⟨a1, a2⟩ := a
    by_cases hka : k = a1
    · exfalso
      have hbeq : (k == a1) = true := beq_iff_eq.mpr hka
      simp only [List.lookup_cons, hbeq] at h
      exact Option.some_ne_none a2 h
    · have hbeq : (k == a1) = false := beq_eq_false_iff_ne.mpr hka
      simp only [List.lookup_cons, hbeq] at h
      rw [List.filter_cons]
      by_cases hp : p (a1, a2) = true
      · rw [if_pos hp]
        simp only [List.lookup_cons, hbeq]
        exact ih h
      · rw [if_neg hp]
        exact ih h

/-- A key absent from a spread record stays readable as before the spread. -/
theorem lookup_recordMerge_of_lookup_none (r : List (String × ℚ)) :
    ∀ (l : List (String × ℚ)) (k : String), r.lookup k = none →
      (recordMerge l r).lookup k = l.lookup k := by
  induction r with
  | nil => intro l k _; rfl
  | cons a t ih =>
    intro l k hk
    obtain ⟨a1, a2⟩ := a
    by_cases hka : k = a1
    · exfalso
      have hbeq : (k == a1) = true := beq_iff_eq.mpr hka
      simp only [List.lookup_cons, hbeq] at hk
      exact Option.some_ne_none a2 hk
    · have hbeq : (k == a1) = false := beq_eq_false_iff_ne.mpr hka
      simp only [List.lookup_cons, hbeq] at hk
      have := ih (recordSet l a1 a2) k hk
      rw [show recordMerge l ((a1, a2) :: t) = recordMerge (recordSet l a1 a2) t from rfl,
        this, lookup_recordSet, if_neg hka]

/-- State invariant of the adjust page: checked metrics, the metrics of an
in-flight preview request, and edited metrics are all among the offered
(applicable) metrics. -/
theorem reachable_adjust_invariant (applicable : List String) (st : AdjustState)
    (h : ReachableAdjust applicable st) :
    (∀ m ∈ st.selectedMetrics, m ∈ applicable) ∧
    (∀ m ∈ st.pendingRequest.getD [], m ∈ applicable) ∧
    (∀ k, (st.editedScores.lookup k).isSome → k ∈ applicable) := by
  induction h with
  | init =>
    exact ⟨fun m hm => absurd hm (List.not_mem_nil m),
      fun m hm => absurd hm (List.not_mem_nil m),
      fun k hk => by simp [initialAdjustState] at hk⟩
  | @step st e hr hv ih =>
    obtain ⟨ihsel, ihpend, ihed⟩ := ih
    cases e with
    | toggle m =>
      simp only [stepAdjust, handleMetricToggle]
      by_cases hm : m ∈ st.selectedMetrics
      · simp only [hm, if_true]
        refine ⟨fun x hx => ihsel x (List.mem_of_mem_filter hx), ihpend, fun k hk => ?_⟩
        rw [lookup_filter_ne] at hk
        by_cases hkm : k = m
        · rw [if_pos hkm] at hk
          exact absurd hk (by simp)
        · rw [if_neg hkm] at hk
          exact ihed k hk
      · simp only [hm, if_false]
        refine ⟨fun x hx => ?_, ihpend, ihed⟩
        rcases List.mem_append.mp hx with hx | hx
        · exact ihsel x hx
        · rcases List.mem_singleton.mp hx with rfl
          exact hv
    | edit m v =>
      simp only [stepAdjust, handleScoreEdit]
      refine ⟨ihsel, ihpend, fun k hk => ?_⟩
      rw [lookup_recordSet] at hk
      by_cases hkm : k = m
      · exact hkm ▸ ihsel m hv
      · rw [if_neg hkm] at hk
        exact ihed k hk
    | calculate =>
      simp only [stepAdjust]
      by_cases hdis : calculateDisabled st.selectedMetrics st.pendingRequest.isSome = true
      · rw [if_pos hdis]
        exact ⟨ihsel, ihpend, ihed⟩
      · rw [if_neg hdis]
        exact ⟨ihsel, ihsel, ihed⟩
    | previewSuccess p =>
      simp only [stepAdjust, applyPreviewSuccess]
      refine ⟨ihsel, fun m hm => absurd hm (List.not_mem_nil m), fun k hk => ?_⟩
      rcases lookup_recordMerge_isSome p.proposed st.editedScores k hk with ⟨v, hv'⟩ | hsome
      · exact ihpend k (hv.2.1 (k, v) hv')
      · exact ihed k hsome

/-- If `handleSave` issues a request, its change set is exactly the
epsilon-filtered edited record. -/
theorem handleSave_changes (scores : List (String × List (String × ℚ)))
    (alias' : String) (st : AdjustState) (a : String) (changes : List (String × ℚ))
    (h : handleSave scores alias' st = some (a, changes)) :
    changes = saveChanges scores alias' st := by
  unfold handleSave at h
  by_cases ha : alias' = ""
  · rw [if_pos ha] at h; exact absurd h (by simp)
  · rw [if_neg ha] at h
    by_cases hc : saveChanges scores alias' st = []
    · rw [if_pos hc] at h; exact absurd h (by simp)
    · rw [if_neg hc] at h
      exact (congrArg Prod.snd (Option.some.inj h)).symm

/-- C9 (counterexample): the interleaving "check M1 → Calculate → uncheck M1
while the request is pending → response arrives" is reachable in the page's
faithful model (checkboxes are not disabled while a preview is pending, and
`onSuccess` merges the proposal unconditionally); it leaves "M1" unselected
although its role weight is positive, yet the subsequent save request carries
a changed score for "M1" — the flow does not leave the unselected metric's
score unchanged. -/
theorem stale_preview_saves_unselected_metric :
    ReachableAdjust ((applicableMetrics demoMetrics "Dev").map Metric.name) staleRun ∧
    "M1" ∉ staleRun.selectedMetrics ∧
    (∃ m ∈ demoMetrics, m.name = "M1" ∧ 0 < jsGet m.weights_by_role "Dev") ∧
    handleSave [] "tom" staleRun = some ("tom", [("M1", 9)]) := by
  have hstate : staleRun = ⟨[], [("M1", 9)], some ⟨[("M1", 9)], 9, []⟩, none⟩ := by
    decide
  refine ⟨?_, ?_, by decide, ?_⟩
  · exact ReachableAdjust.step (ReachableAdjust.step (ReachableAdjust.step
      (ReachableAdjust.step ReachableAdjust.init (by decide)) (by decide))
      (by decide)) (by decide)
  · rw [hstate]; decide
  · rw [hstate]
    have hchanges : saveChanges [] "tom"
        ⟨[], [("M1", 9)], some ⟨[("M1", 9)], 9, []⟩, none⟩ = [("M1", 9)] := by
      unfold saveChanges getCurrentScore
      simp only [List.filter_cons, List.filter_nil, List.lookup_nil]
      norm_num
    unfold handleSave
    rw [hchanges]
    decide

/-- C9 (amended): on any reachable adjust-page state, (a) unchecking a checked
metric removes it from the selection and deletes its edited value; (b) a save
request's change set is exactly the edited entries differing from the original
score by more than the epsilon; (c) a metric with no edited entry is absent
from any save request's change set and — absent an applied proposal for it —
displays its original score; (d) a metric not offered for the role never
acquires an edited entry at all. -/
theorem unselected_metrics_untouched (applicable : List String) (st : AdjustState)
    (h : ReachableAdjust applicable st) :
    (∀ m ∈ st.selectedMetrics,
        (handleMetricToggle st m).editedScores.lookup m = none ∧
        m ∉ (handleMetricToggle st m).selectedMetrics) ∧
    (∀ scores alias' a changes, handleSave scores alias' st = some (a, changes) →
        changes = saveChanges scores alias' st ∧
        ∀ k v, (k, v) ∈ changes → 1/10000 < |v - getCurrentScore scores alias' k|) ∧
    (∀ m, st.editedScores.lookup m = none →
        (∀ scores alias' a changes, handleSave scores alias' st = some (a, changes) →
          changes.lookup m = none) ∧
        (∀ scores alias', (st.preview.bind fun p => p.proposed.lookup m) = none →
          getEditedValue scores alias' st.editedScores st.preview m =
            getCurrentScore scores alias' m)) ∧
    (∀ m, m ∉ applicable → st.editedScores.lookup m = none) := by
  have hinv := reachable_adjust_invariant applicable st h
  refine ⟨fun m hm => ?_, ?_, fun m hnone => ?_, fun m hm => ?_⟩
  · unfold handleMetricToggle
    rw [if_pos hm]
    constructor
    · rw [lookup_filter_ne, if_pos rfl]
    · intro hmem
      have := List.mem_filter.mp hmem
      simp at this
  · intro scores alias' a changes hsave
    refine ⟨handleSave_changes scores alias' st a changes hsave, ?_⟩
    intro k v hkv
    rw [handleSave_changes scores alias' st a changes hsave] at hkv
    have := List.mem_filter.mp hkv
    simpa using this.2
  · refine ⟨fun scores alias' a changes hsave => ?_, fun scores alias' hp => ?_⟩
    · rw [handleSave_changes scores alias' st a changes hsave]
      exact lookup_filter_none _ _ m hnone
    · unfold getEditedValue
      simp only [hnone, hp]
  · cases hlk : st.editedScores.lookup m with
    | none => rfl
    | some v => exact absurd (hinv.2.2 m (by simp [hlk])) hm

/-- Witness for C9 (amended): after checking "M1", typing 7 and unchecking
"M1" — with no preview request in flight — the metric leaves the selection and
its edited value is gone. -/
theorem unselected_metrics_untouched_witness :
    demoAdjustRun.editedScores.lookup "M1" = none ∧
    "M1" ∉ demoAdjustRun.selectedMetrics := by
  have hreach : ReachableAdjust ["M1", "M2"]
      (stepAdjust (stepAdjust initialAdjustState (.toggle "M1"))
        (.edit "M1" (some 7))) :=
    ReachableAdjust.step (ReachableAdjust.step ReachableAdjust.init (by decide))
      (by decide)
  have h := (unselected_metrics_untouched ["M1", "M2"] _ hreach).1 "M1" (by decide)
  exact ⟨h.1, h.2⟩

/-- C10: on any reachable adjust-page state (checkboxes offered only for the
metrics applicable to the member's role), every preview request the page can
issue carries a non-empty selection all of whose metrics have positive weight
for the role; with an empty selection no request is issued and the Calculate
button is disabled — so a zero-weight selection cannot be sent from this
page. -/
theorem preview_requests_only_positive_weights (metrics : List Metric) (role : String)
    (st : AdjustState)
    (h : ReachableAdjust ((applicableMetrics metrics role).map Metric.name) st) :
    (∀ alias' targetPercent req,
        handleCalculate alias' st.selectedMetrics targetPercent = some req →
        req.selected_metrics ≠ [] ∧
        ∀ n ∈ req.selected_metrics,
          ∃ m ∈ metrics, m.name = n ∧ 0 < jsGet m.weights_by_role role) ∧
    (st.selectedMetrics = [] →
        (∀ alias' targetPercent,
          handleCalculate alias' st.selectedMetrics targetPercent = none) ∧
        ∀ isPending, calculateDisabled st.selectedMetrics isPending = true) := by
  have hinv := reachable_adjust_invariant _ st h
  constructor
  · intro alias' targetPercent req hreq
    unfold handleCalculate at hreq
    by_cases hguard : alias' = "" ∨ st.selectedMetrics = []
    · rw [if_pos hguard] at hreq
      exact absurd hreq (by simp)
    · rw [if_neg hguard] at hreq
      push_neg at hguard
      obtain rfl : req = ⟨alias', st.selectedMetrics, targetPercent⟩ :=
        (Option.some.inj hreq).symm
      refine ⟨hguard.2, fun n hn => ?_⟩
      have hna := hinv.1 n hn
      rcases List.mem_map.mp hna with ⟨m, hm, rfl⟩
      have hm' := List.mem_filter.mp hm
      exact ⟨m, hm'.1, rfl, by simpa using hm'.2⟩
  · intro hempty
    refine ⟨fun alias' targetPercent => ?_, fun isPending => ?_⟩
    · unfold handleCalculate
      rw [if_pos (Or.inr hempty)]
    · simp [calculateDisabled, hempty]

/-- Witness for C10: with "M1" checked (an applicable, weight-1 metric of the
demo data), the issued request is non-empty and its metric has positive
weight. -/
theorem preview_requests_only_positive_weights_witness :
    ∃ m ∈ demoMetrics, m.name = "M1" ∧ 0 < jsGet m.weights_by_role "Dev" := by
  have hreach : ReachableAdjust ((applicableMetrics demoMetrics "Dev").map Metric.name)
      (stepAdjust initialAdjustState (.toggle "M1")) :=
    ReachableAdjust.step ReachableAdjust.init (by decide)
  have happ := (preview_requests_only_positive_weights demoMetrics "Dev" _ hreach).1
    "tom" 5 ⟨"tom", ["M1"], 5⟩ (by decide)
  exact happ.2 "M1" (by decide)

/-- `lexLeB` is reflexive. -/
theorem lexLeB_refl : ∀ x : List Nat, lexLeB x x = true
  | [] => rfl
  | a :: as => by simp [lexLeB, lexLeB_refl as]

/-- `lexLeB` is total. -/
theorem lexLeB_total : ∀ x y : List Nat, lexLeB x y = true ∨ lexLeB y x = true
  | [], _ => Or.inl rfl
  | _ :: _, [] => Or.inr rfl
  | a :: as, b :: bs => by
    rcases Nat.lt_trichotomy a b with h | h | h
    · left; simp [lexLeB, h]
    · subst h
      rcases lexLeB_total as bs with h' | h'
      · left; simp [lexLeB, h']
      · right; simp [lexLeB, h']
    · right; simp [lexLeB, h]

/-- `lexLeB` is transitive. -/
theorem lexLeB_trans : ∀ x y z : List Nat,
    lexLeB x y = true → lexLeB y z = true → lexLeB x z = true
  | [], _, _, _, _ => rfl
  | _ :: _, [], _, h, _ => by simp [lexLeB] at h
  | _ :: _, _ :: _, [], _, h => by simp [lexLeB] at h
  | a :: as, b :: bs, c :: cs, h1, h2 => by
    simp only [lexLeB] at h1 h2 ⊢
    split_ifs at h1 h2 ⊢ <;>
      first
        | rfl
        | omega
        | exact lexLeB_trans as bs cs h1 h2

instance : IsTotal MemberScore cohortOrder :=
  ⟨fun a b => by
    unfold cohortOrder
    rcases lt_trichotomy a.score b.score with h | h | h
    · exact Or.inr (Or.inl h)
    · rcases lexLeB_total (a.alias'.data.map Char.toNat) (b.alias'.data.map Char.toNat)
        with h' | h'
      · exact Or.inl (Or.inr ⟨h, h'⟩)
      · exact Or.inr (Or.inr ⟨h.symm, h'⟩)
    · exact Or.inl (Or.inl h)⟩

instance : IsTrans MemberScore cohortOrder :=
  ⟨fun a b c hab hbc => by
    unfold cohortOrder at *
    rcases hab with h1 | ⟨h1e, h1a⟩
    · rcases hbc with h2 | ⟨h2e, h2a⟩
      · exact Or.inl (h2.trans h1)
      · exact Or.inl (h2e ▸ h1)
    · rcases hbc with h2 | ⟨h2e, h2a⟩
      · exact Or.inl (h1e.symm ▸ h2)
      · exact Or.inr ⟨h1e.trans h2e, lexLeB_trans _ _ _ h1a h2a⟩⟩

/-- Dense ranking preserves the cohort's weighted scores position by
position. -/
theorem rankFrom_scores : ∀ (ms : List MemberScore) (prev : Option ℚ) (r : Nat),
    (rankFrom prev r ms).map (fun row => row.weighted_score) = ms.map (fun m => m.score)
  | [], _, _ => rfl
  | m :: rest, prev, r => by
    simp only [rankFrom, List.map_cons, List.cons.injEq, true_and]
    exact rankFrom_scores rest (some m.score) (nextRank prev r m.score)

/-- Dense ranking preserves the cohort's roles position by position. -/
theorem rankFrom_roles : ∀ (ms : List MemberScore) (prev : Option ℚ) (r : Nat),
    (rankFrom prev r ms).map (fun row => row.role) = ms.map (fun m => m.role)
  | [], _, _ => rfl
  | m :: rest, prev, r => by
    simp only [rankFrom, List.map_cons, List.cons.injEq, true_and]
    exact rankFrom_roles rest (some m.score) (nextRank prev r m.score)

/-- Every row `rankFrom` emits carries the mismatch flag computed from its own
expected rank and its own computed rank. -/
theorem rankFrom_mismatch : ∀ (ms : List MemberScore) (prev : Option ℚ) (r : Nat),
    ∀ row ∈ rankFrom prev r ms, row.mismatch = mismatchOf row.expected_rank row.rank
  | [], _, _, row, hrow => absurd hrow (List.not_mem_nil row)
  | m :: rest, prev, r, row, hrow => by
    rcases List.mem_cons.mp hrow with rfl | htail
    · rfl
    · exact rankFrom_mismatch rest (some m.score) (nextRank prev r m.score) row htail

/-- The dense-rank step never decreases the running rank. -/
theorem nextRank_ge (prev : Option ℚ) (r : Nat) (s : ℚ) : r ≤ nextRank prev r s := by
  unfold nextRank
  by_cases h : prev = some s
  · rw [if_pos h]
  · rw [if_neg h]; exact Nat.le_succ r

/-- The dense-rank step increases the running rank by at most one. -/
theorem nextRank_le (prev : Option ℚ) (r : Nat) (s : ℚ) : nextRank prev r s ≤ r + 1 := by
  unfold nextRank
  by_cases h : prev = some s
  · rw [if_pos h]; exact Nat.le_succ r
  · rw [if_neg h]

/-- Every emitted rank is at least the running rank. -/
theorem rankFrom_rank_ge : ∀ (ms : List MemberScore) (prev : Option ℚ) (r : Nat),
    ∀ row ∈ rankFrom prev r ms, r ≤ row.rank
  | [], _, _, row, hrow => absurd hrow (List.not_mem_nil row)
  | m :: rest, prev, r, row, hrow => by
    rcases List.mem_cons.mp hrow with rfl | htail
    · exact nextRank_ge prev r m.score
    · exact le_trans (nextRank_ge prev r m.score)
        (rankFrom_rank_ge rest (some m.score) (nextRank prev r m.score) row htail)

/-- Adjacent rows of a dense ranking satisfy the dense step: equal scores keep
the rank, a new score increments it by one. -/
theorem rankFrom_chain : ∀ (ms : List MemberScore) (prev : Option ℚ) (r : Nat),
    List.Chain' denseStep (rankFrom prev r ms)
  | [], _, _ => List.chain'_nil
  | m :: rest, prev, r => by
    rw [rankFrom]
    refine List.chain'_cons'.mpr
      ⟨?_, rankFrom_chain rest (some m.score) (nextRank prev r m.score)⟩
    intro y hy
    cases rest with
    | nil => simp [rankFrom] at hy
    | cons m2 rest2 =>
      simp only [rankFrom, List.head?_cons, Option.mem_def, Option.some.injEq] at hy
      subst hy
      show nextRank (some m.score) (nextRank prev r m.score) m2.score =
        if m2.score = m.score then nextRank prev r m.score
        else nextRank prev r m.score + 1
      unfold nextRank
      by_cases h : m2.score = m.score
      · simp [h]
      · have h' : ¬ (some m.score = some m2.score) := fun hc =>
          h (Option.some.inj hc).symm
        simp [h, h']

/-- Dense ranks have no gaps: any value between the running rank (exclusive)
and an emitted rank is itself emitted. -/
theorem rankFrom_no_gaps : ∀ (ms : List MemberScore) (prev : Option ℚ) (r : Nat),
    ∀ row ∈ rankFrom prev r ms, ∀ j, r < j → j ≤ row.rank →
      ∃ row' ∈ rankFrom prev r ms, row'.rank = j
  | [], _, _, row, hrow => absurd hrow (List.not_mem_nil row)
  | m :: rest, prev, r, row, hrow => by
    intro j hrj hjrow
    have hle := nextRank_le prev r m.score
    have hge := nextRank_ge prev r m.score
    rcases List.mem_cons.mp hrow with rfl | htail
    · refine ⟨_, List.mem_cons_self _ _, ?_⟩
      show nextRank prev r m.score = j
      have hx : j ≤ nextRank prev r m.score := hjrow
      omega
    · by_cases hj : j ≤ nextRank prev r m.score
      · refine ⟨_, List.mem_cons_self _ _, ?_⟩
        show nextRank prev r m.score = j
        omega
      · obtain ⟨row', hrow', hrank'⟩ :=
          rankFrom_no_gaps rest (some m.score) (nextRank prev r m.score) row htail j
            (by omega) hjrow
        exact ⟨row', List.mem_cons_of_mem _ hrow', hrank'⟩

/-- Two adjacency chains combine into one chain of their conjunction. -/
theorem chain'_conj {α : Type} {R S : α → α → Prop} :
    ∀ l : List α, List.Chain' R l → List.Chain' S l →
      List.Chain' (fun a b => R a b ∧ S a b) l
  | [], _, _ => List.chain'_nil
  | [_], _, _ => List.chain'_singleton _
  | a :: b :: t, hR, hS => by
    rw [List.chain'_cons] at hR hS ⊢
    exact ⟨⟨hR.1, hS.1⟩, chain'_conj (b :: t) hR.2 hS.2⟩

/-- On a cohort with weakly decreasing scores, dense ranking is pairwise
coherent: scores weakly decrease, ranks weakly increase, and rows share a
score exactly when they share a rank. -/
theorem rankFrom_pairwise (ms : List MemberScore) (prev : Option ℚ) (r : Nat)
    (hs : List.Pairwise (fun a b => b.score ≤ a.score) ms) :
    List.Pairwise rankRel (rankFrom prev r ms) := by
  have hchain := rankFrom_chain ms prev r
  have hscores : List.Pairwise (fun a b : RankingEntry =>
      b.weighted_score ≤ a.weighted_score) (rankFrom prev r ms) := by
    have hmap := rankFrom_scores ms prev r
    have h1 : List.Pairwise (fun x y : ℚ => y ≤ x) (ms.map (fun m => m.score)) :=
      List.pairwise_map.mpr hs
    have h2 : List.Pairwise (fun x y : ℚ => y ≤ x)
        ((rankFrom prev r ms).map (fun row => row.weighted_score)) := by
      rw [hmap]; exact h1
    exact List.pairwise_map.mp h2
  have hboth := chain'_conj _ hchain hscores.chain'
  have hrel : List.Chain' rankRel (rankFrom prev r ms) := by
    refine hboth.imp ?_
    rintro a b ⟨hstep, hge⟩
    unfold denseStep at hstep
    by_cases h : b.weighted_score = a.weighted_score
    · rw [if_pos h] at hstep
      exact ⟨hge, hstep.ge, fun _ => hstep.symm, fun _ => h.symm⟩
    · rw [if_neg h] at hstep
      refine ⟨hge, ?_, fun e => absurd e.symm h, fun e => ?_⟩
      · rw [hstep]; exact Nat.le_succ _
      · rw [hstep] at e; omega
  exact List.chain'_iff_pairwise.mp hrel

/-- The sorted cohort's scores weakly decrease. -/
theorem sortCohort_sorted_scores (l : List MemberScore) :
    List.Pairwise (fun a b => b.score ≤ a.score) (sortCohort l) := by
  have h := List.sorted_insertionSort cohortOrder l
  refine List.Pairwise.imp ?_ h
  intro a b hab
  rcases hab with h' | ⟨h', _⟩
  · exact h'.le
  · exact h'.ge

/-- Pairwise coherence of a ranked cohort. -/
theorem rankCohort_pairwise (l : List MemberScore) :
    List.Pairwise rankRel (rankCohort l) :=
  rankFrom_pairwise (sortCohort l) none 0 (sortCohort_sorted_scores l)

/-- Every rank in a ranked cohort is at least 1. -/
theorem rankCohort_rank_pos (l : List MemberScore) :
    ∀ row ∈ rankCohort l, 1 ≤ row.rank := by
  unfold rankCohort
  cases hs : sortCohort l with
  | nil => intro row hrow; simp [rankFrom] at hrow
  | cons m rest =>
    have h1 : 1 ≤ nextRank none 0 m.score := by
      unfold nextRank
      rw [if_neg (by simp)]
    intro row hrow
    rw [rankFrom] at hrow
    rcases List.mem_cons.mp hrow with rfl | htail
    · exact h1
    · exact le_trans h1
        (rankFrom_rank_ge rest (some m.score) (nextRank none 0 m.score) row htail)

/-- Rows of a ranked cohort with equal weighted scores share a rank. -/
theorem rankCohort_share_rank (l : List MemberScore) :
    ∀ r1 ∈ rankCohort l, ∀ r2 ∈ rankCohort l,
      r1.weighted_score = r2.weighted_score → r1.rank = r2.rank := by
  have hp : List.Pairwise (fun a b : RankingEntry =>
      a.weighted_score = b.weighted_score ↔ a.rank = b.rank) (rankCohort l) :=
    (rankCohort_pairwise l).imp (fun hab => hab.2.2)
  have hsymm : Symmetric (fun a b : RankingEntry =>
      a.weighted_score = b.weighted_score ↔ a.rank = b.rank) :=
    fun a b h => ⟨fun e => (h.mp e.symm).symm, fun e => (h.mpr e.symm).symm⟩
  intro r1 h1 r2 h2 he
  by_cases heq : r1 = r2
  · rw [heq]
  · exact (hp.forall hsymm h1 h2 heq).mp he

/-- A strictly larger weighted score means a strictly better (smaller) rank. -/
theorem rankCohort_strict_rank (l : List MemberScore) :
    ∀ r1 ∈ rankCohort l, ∀ r2 ∈ rankCohort l,
      r2.weighted_score < r1.weighted_score → r1.rank < r2.rank := by
  have hp : List.Pairwise (fun a b : RankingEntry =>
      (b.weighted_score < a.weighted_score → a.rank < b.rank) ∧
      (a.weighted_score < b.weighted_score → b.rank < a.rank)) (rankCohort l) := by
    refine (rankCohort_pairwise l).imp ?_
    rintro a b ⟨hscore, hrank, hiff⟩
    constructor
    · intro hlt
      exact lt_of_le_of_ne hrank (fun e => hlt.ne ((hiff.mpr e).symm ▸ rfl))
    · intro hlt
      exact absurd hlt (not_lt.mpr hscore)
  have hsymm : Symmetric (fun a b : RankingEntry =>
      (b.weighted_score < a.weighted_score → a.rank < b.rank) ∧
      (a.weighted_score < b.weighted_score → b.rank < a.rank)) :=
    fun a b h => ⟨h.2, h.1⟩
  intro r1 h1 r2 h2 hlt
  by_cases heq : r1 = r2
  · subst heq; exact absurd hlt (lt_irrefl _)
  · exact (hp.forall hsymm h1 h2 heq).1 hlt

/-- All rows ranked from a single-role cohort carry that role. -/
theorem rankCohort_roles (ro : String) (lc : List MemberScore)
    (hall : ∀ m ∈ lc, m.role = ro) :
    ∀ row ∈ rankCohort lc, row.role = ro := by
  intro row hrow
  have hmem : row.role ∈ (rankCohort lc).map (fun r => r.role) :=
    List.mem_map_of_mem _ hrow
  have hroles : (rankCohort lc).map (fun r => r.role) =
      (sortCohort lc).map (fun m => m.role) := rankFrom_roles (sortCohort lc) none 0
  rw [hroles] at hmem
  have hperm : List.Perm (sortCohort lc) lc := List.perm_insertionSort cohortOrder lc
  have hmem' : row.role ∈ lc.map (fun m => m.role) :=
    ((hperm.map (fun m => m.role)).mem_iff).mp hmem
  rcases List.mem_map.mp hmem' with ⟨m, hm, he⟩
  rw [← he]
  exact hall m hm

/-- Filtering the concatenated per-role blocks for one role recovers exactly
that role's block (roles pairwise distinct). -/
theorem filter_flatMap_cohorts (members : List MemberScore) (ro : String) :
    ∀ ros : List String, ros.Nodup →
      ((ros.flatMap (fun r' => rankCohort (members.filter (fun m => m.role = r')))).filter
          (fun row => row.role = ro)) =
        if ro ∈ ros then rankCohort (members.filter (fun m => m.role = ro)) else []
  | [], _ => by simp
  | r' :: t, hnd => by
    rw [List.flatMap_cons, List.filter_append]
    have hnd' := List.nodup_cons.mp hnd
    have hcohort : ∀ m ∈ members.filter (fun m => m.role = r'), m.role = r' :=
      fun m hm => by simpa using (List.mem_filter.mp hm).2
    by_cases h : r' = ro
    · subst h
      rw [if_pos (List.mem_cons_self _ _)]
      have h1 : (rankCohort (members.filter (fun m => m.role = r'))).filter
          (fun row => row.role = r') =
          rankCohort (members.filter (fun m => m.role = r')) := by
        refine List.filter_eq_self.mpr ?_
        intro row hrow
        simpa using rankCohort_roles r' _ hcohort row hrow
      rw [h1, filter_flatMap_cohorts members r' t hnd'.2, if_neg hnd'.1,
        List.append_nil]
    · have h1 : (rankCohort (members.filter (fun m => m.role = r'))).filter
          (fun row => row.role = ro) = [] := by
        refine List.filter_eq_nil_iff.mpr ?_
        intro row hrow
        have hro := rankCohort_roles r' _ hcohort row hrow
        simp [hro, h]
      rw [h1, List.nil_append, filter_flatMap_cohorts members ro t hnd'.2]
      by_cases hrot : ro ∈ t
      · rw [if_pos hrot, if_pos (List.mem_cons_of_mem _ hrot)]
      · rw [if_neg hrot, if_neg (fun hc => by
          rcases List.mem_cons.mp hc with hc' | hc'
          · exact h hc'.symm
          · exact hrot hc')]

/-- The role list of the full ranking has no duplicates. -/
theorem rolesOf_nodup (members : List MemberScore) : (rolesOf members).Nodup := by
  unfold rolesOf
  exact (List.perm_insertionSort aliasLe
    ((members.map (fun m => m.role)).dedup)).nodup_iff.mpr (List.nodup_dedup _)

/-- A member's role always appears in the role list. -/
theorem role_mem_rolesOf (members : List MemberScore) (m : MemberScore)
    (hm : m ∈ members) : m.role ∈ rolesOf members := by
  unfold rolesOf
  refine (List.perm_insertionSort aliasLe
    ((members.map (fun m => m.role)).dedup)).mem_iff.mpr ?_
  rw [List.mem_dedup]
  exact List.mem_map_of_mem _ hm

/-- One role's rows within `computeRankings` are exactly the dense ranking of
that role's cohort. -/
theorem cohortRows_eq_rankCohort (members : List MemberScore) (ro : String) :
    cohortRows members ro = rankCohort (members.filter (fun m => m.role = ro)) := by
  unfold cohortRows computeRankings
  rw [filter_flatMap_cohorts members ro (rolesOf members) (rolesOf_nodup members)]
  by_cases h : ro ∈ rolesOf members
  · rw [if_pos h]
  · rw [if_neg h]
    have hempty : members.filter (fun m => m.role = ro) = [] := by
      refine List.filter_eq_nil_iff.mpr ?_
      intro m hm
      simp only [decide_eq_true_eq]
      intro he
      exact h (he ▸ role_mem_rolesOf members m hm)
    rw [hempty]
    rfl

/-- C1: within every role cohort of `computeRankings`, ranks are dense —
every rank is at least 1, a member with a maximal weighted score has rank 1,
members sharing a weighted score share a rank, a strictly larger score means a
strictly smaller rank, and no rank value up to any attained rank is skipped. -/
theorem computeRankings_dense_ranks (members : List MemberScore) (role : String) :
    (∀ row ∈ cohortRows members role, 1 ≤ row.rank) ∧
    (∀ row ∈ cohortRows members role,
        (∀ other ∈ cohortRows members role,
          other.weighted_score ≤ row.weighted_score) →
        row.rank = 1) ∧
    (∀ r1 ∈ cohortRows members role, ∀ r2 ∈ cohortRows members role,
        r1.weighted_score = r2.weighted_score → r1.rank = r2.rank) ∧
    (∀ r1 ∈ cohortRows members role, ∀ r2 ∈ cohortRows members role,
        r2.weighted_score < r1.weighted_score → r1.rank < r2.rank) ∧
    (∀ row ∈ cohortRows members role, ∀ j, 1 ≤ j → j ≤ row.rank →
        ∃ row' ∈ cohortRows members role, row'.rank = j) := by
  rw [cohortRows_eq_rankCohort]
  have hgaps : ∀ row ∈ rankCohort (members.filter (fun m => m.role = role)),
      ∀ j, 1 ≤ j → j ≤ row.rank →
      ∃ row' ∈ rankCohort (members.filter (fun m => m.role = role)), row'.rank = j := by
    intro row hrow j hj1 hjrow
    exact rankFrom_no_gaps _ none 0 row hrow j (by omega) hjrow
  refine ⟨rankCohort_rank_pos _, ?_, rankCohort_share_rank _,
    rankCohort_strict_rank _, hgaps⟩
  intro row hrow hmax
  have h1le := rankCohort_rank_pos _ row hrow
  obtain ⟨row₁, h₁mem, h₁rank⟩ := hgaps row hrow 1 le_rfl h1le
  by_cases heq : row.weighted_score = row₁.weighted_score
  · rw [rankCohort_share_rank _ row hrow row₁ h₁mem heq, h₁rank]
  · have hlt : row₁.weighted_score < row.weighted_score :=
      lt_of_le_of_ne (hmax row₁ h₁mem) (fun e => heq e.symm)
    have hstrict := rankCohort_strict_rank _ row hrow row₁ h₁mem hlt
    omega

/-- Witness for C1: Scenario A — weighted scores 90, 90, 70 rank as 1, 1, 2,
and rank 1 is attained. -/
theorem computeRankings_dense_ranks_witness :
    (cohortRows devMembers "Dev").map (fun row => row.rank) = [1, 1, 2] ∧
    ∃ row' ∈ cohortRows devMembers "Dev", row'.rank = 1 := by
  refine ⟨by decide, ?_⟩
  obtain ⟨-, -, -, -, h5⟩ := computeRankings_dense_ranks devMembers "Dev"
  exact h5 ⟨"cat", "Dev", 70, 2, none, false⟩ (by decide) 1 (by decide) (by decide)

/-- C2: a ranking row's mismatch flag is set iff an expected rank is present
and differs from the computed rank; a row with no expected rank is never
flagged, never styled as a mismatch, and never clickable — both for the
engine's flag and for the table's `rankExpectMismatch` recomputation. -/
theorem mismatch_iff_expected_differs :
    (∀ members : List MemberScore, ∀ row ∈ computeRankings members,
        (row.mismatch = true ↔ ∃ e, row.expected_rank = some e ∧ e ≠ row.rank) ∧
        (row.expected_rank = none →
          row.mismatch = false ∧ rankCellMismatchStyled row = false)) ∧
    (∀ (rank : Nat) (expected : Option Nat),
        (rankExpectMismatch rank expected = true ↔
          ∃ e, expected = some e ∧ rank ≠ e) ∧
        rankExpectMismatch rank none = false) ∧
    (∀ entry : RankingEntry, entry.expected_rank = none →
        rankCellClickable entry = false) := by
  refine ⟨?_, ?_, ?_⟩
  · intro members row hrow
    have hmm : row.mismatch = mismatchOf row.expected_rank row.rank := by
      rcases List.mem_flatMap.mp hrow with ⟨ro, _, hrow'⟩
      exact rankFrom_mismatch _ none 0 row hrow'
    constructor
    · rw [hmm]
      cases he : row.expected_rank with
      | none => simp [mismatchOf]
      | some e => simp [mismatchOf]
    · intro he
      rw [rankCellMismatchStyled, hmm, he]
      exact ⟨rfl, rfl⟩
  · intro rank expected
    constructor
    · cases expected with
      | none => simp [rankExpectMismatch, jsRankNeq]
      | some e => simp [rankExpectMismatch, jsRankNeq]
    · rfl
  · intro entry he
    rw [rankCellClickable, he]
    rfl

/-- Witness for C2: the member with no expected rank in the concrete cohort is
neither flagged nor styled. -/
theorem mismatch_iff_expected_differs_witness :
    (⟨"cat", "Dev", 70, 3, none, false⟩ : RankingEntry).mismatch = false ∧
    rankCellMismatchStyled ⟨"cat", "Dev", 70, 3, none, false⟩ = false :=
  (mismatch_iff_expected_differs.1 devMembersE
    ⟨"cat", "Dev", 70, 3, none, false⟩ (by decide)).2 rfl

end TeamRank
